import Mathlib

/-!
Verification of the `fnmatch` module (shell-style wildcard matching).

The module translates shell wildcard patterns (`*`, `?`, `[seq]`, `[!seq]`)
into a regular expression consumed by an external regex engine, and builds
matching and filtering entry points on top of the translation.

Strings are modelled as `List Char` (a Python `str` is a finite sequence of
code points).  The translator and the API functions are embedded directly
from `src/fnmatch/fnmatch.py`.  The external regular-expression engine is
modelled by a parser and a backtracking matcher for exactly the fragment of
regex syntax the translator emits: literals, escaped literals, `.` (with the
dot-all flag, so it matches any character), `*` repetition, character
classes with negation / literal-first-`]` / ranges, the `(?ms)` flag prefix
and the `\Z` absolute end-of-string anchor.  `re.match` semantics (anchored
at the start only) are the `anchored := false` matcher; whole-string
semantics are the `anchored := true` matcher.

Recursive functions that are not structurally recursive are written with an
explicit fuel argument (always called with sufficient fuel by the wrappers),
so that every definition computes by kernel reduction.
-/

namespace Fnmatch

/-! ## Escaping of literal characters

`re.escape` on a single character (and the module's own `_re_escape`
fallback, which agrees with it on one-character strings): the characters of
`b'()[]{}?*+-|^$\\.&~# \t\n\r\v\f'` are prefixed with a backslash, all
others pass through. -/

/-- The set of characters escaped by `re.escape` / `_re_special_chars_map`:
`( ) [ ] { } ? * + - | ^ $ \ . & ~ #` and the whitespace characters
space, tab, newline, carriage return, vertical tab, form feed. -/
def specialChars : List Char :=
  ['(', ')', '[', ']', Char.ofNat 123, Char.ofNat 125, '?', '*', '+', '-',
   '|', '^', '$', '\\', '.', '&', '~', '#', ' ', '\t', '\n', '\r',
   Char.ofNat 11, Char.ofNat 12]

/-- `re.escape` restricted to a single character, as used by `translate`
for every non-wildcard pattern character. -/
def escapeChar (c : Char) : List Char :=
  if c ∈ specialChars then ['\\', c] else [c]

/-! ## The bracket-group scan of `translate`

`translate` on `[`: let `j` start right after the `[`; skip an optional
`!`, then an optional `]`, then advance to the next `]`.  If none is found
the group is unterminated.  `scanGroup` returns the characters strictly
between the brackets (`pat[i:j]` in the source) and the rest of the
pattern after the closing `]`. -/

/-- Scan to the first `]`; return the characters before it and the rest
after it, or `none` if there is no `]`. -/
def scanClose : List Char → Option (List Char × List Char)
  | [] => none
  | c :: rest =>
    if c = ']' then some ([], rest)
    else (scanClose rest).map (fun p => (c :: p.1, p.2))

/-- Skip a single leading occurrence of `c`, returning the skipped prefix
(empty or `[c]`) and the remainder. -/
def skipChar (c : Char) (l : List Char) : List Char × List Char :=
  match l with
  | [] => ([], [])
  | d :: rest => if d = c then ([d], rest) else ([], l)

/-- The bracket-group scan of `translate`: after a `[`, skip an optional
`!` and then an optional `]`, then look for the closing `]`.  Returns
(content between the brackets, rest of the pattern) or `none` when the
group is unterminated. -/
def scanGroup (l : List Char) : Option (List Char × List Char) :=
  let s1 := skipChar '!' l
  let s2 := skipChar ']' s1.2
  (scanClose s2.2).map (fun q => (s1.1 ++ (s2.1 ++ q.1), q.2))

/-- `stuff.replace('\\', '\\\\')`: double every backslash of the group
content. -/
def doubleBackslashes : List Char → List Char
  | [] => []
  | c :: rest =>
    if c = '\\' then '\\' :: '\\' :: doubleBackslashes rest
    else c :: doubleBackslashes rest

/-- The head fix-up of the group content: a leading `!` becomes `^`
(regex negation), a leading literal `^` is escaped with a backslash. -/
def fixHead (l : List Char) : List Char :=
  match l with
  | [] => []
  | c :: rest =>
    if c = '!' then '^' :: rest
    else if c = '^' then '\\' :: '^' :: rest
    else c :: rest

/-! ## The main loop of `translate` -/

/-- Fueled body of the `translate` scan loop: `*` emits `.*`, `?` emits
`.`, `[` emits either the escaped literal `\[` (unterminated group) or a
character class built from the scanned content, and any other character is
escaped for literal inclusion. -/
def transF : Nat → List Char → List Char
  | 0, _ => []
  | _ + 1, [] => []
  | f + 1, c :: rest =>
    if c = '*' then '.' :: '*' :: transF f rest
    else if c = '?' then '.' :: transF f rest
    else if c = '[' then
      match scanGroup rest with
      | none => '\\' :: '[' :: transF f rest
      | some (stuff, rem) =>
        '[' :: (fixHead (doubleBackslashes stuff) ++ ']' :: transF f rem)
    else escapeChar c ++ transF f rest

/-- The body of the translated expression (the scan loop of `translate`). -/
def trans (l : List Char) : List Char := transF l.length l

/-- The `(?ms)` prefix of the translated expression (multi-line and
dot-matches-newline modes). -/
def reFlags : List Char := ['(', '?', 'm', 's', ')']

/-- `translate(pat)`: the translated expression is `'(?ms)' + res + '\Z'`. -/
def translate (pat : List Char) : List Char :=
  reFlags ++ (trans pat ++ ['\\', 'Z'])

/-! ## The external regular-expression engine (fragment model)

An abstract syntax for the emitted fragment, a parser from expression text,
and a backtracking matcher. -/

/-- An item of a character class: a single character or a range. -/
inductive ClassItem where
  | single (c : Char)
  | range (lo hi : Char)
deriving DecidableEq, Repr

/-- An atom of the fragment: `.`, a literal character, a character class
(possibly negated), or the `\Z` absolute end anchor. -/
inductive Atom where
  | dot
  | lit (c : Char)
  | cls (neg : Bool) (items : List ClassItem)
  | endAnchor
deriving DecidableEq, Repr

/-- Does character `c` match one class item?  A range compares code
points. -/
def itemMatches (c : Char) : ClassItem → Bool
  | ClassItem.single d => c == d
  | ClassItem.range lo hi => decide (lo ≤ c) && decide (c ≤ hi)

/-- Does character `c` match one atom?  `.` matches every character (the
dot-all flag is on); `\Z` never consumes a character. -/
def atomMatches (a : Atom) (c : Char) : Bool :=
  match a with
  | Atom.dot => true
  | Atom.lit d => c == d
  | Atom.cls neg items =>
    if neg then !(items.any (fun it => itemMatches c it))
    else items.any (fun it => itemMatches c it)
  | Atom.endAnchor => false

/-- Read one (possibly escaped) character of a class body.  A `]` is a
literal only in first position; a backslash escapes the next character
(the fragment only gives escapes a meaning on non-alphanumeric
characters). -/
def readClassChar (first : Bool) (l : List Char) : Option (Char × List Char) :=
  match l with
  | [] => none
  | c :: rest =>
    if c = '\\' then
      match rest with
      | [] => none
      | d :: rest2 => if d.isAlphanum then none else some (d, rest2)
    else if c = ']' then (if first then some (']', rest) else none)
    else some (c, rest)

/-- The continuation of the class-item parser after its first character
`c1` has been read, with `r1` the remaining input: either `c1` starts a
range `c1-c2` (unless the `-` sits just before the closing `]`, where it
is a literal), or `c1` is a single member.  `recur` is the recursive call
back into the item parser. -/
def itemStep (recur : Bool → List Char → Option (List ClassItem × List Char))
    (c1 : Char) (r1 : List Char) : Option (List ClassItem × List Char) :=
  match r1 with
  | [] => none
  | d :: r2 =>
    if d = '-' then
      match r2 with
      | [] => none
      | e :: r3 =>
        if e = ']' then some ([ClassItem.single c1, ClassItem.single '-'], r3)
        else
          match readClassChar false r2 with
          | none => none
          | some (c2, r4) =>
            (recur false r4).map (fun p => (ClassItem.range c1 c2 :: p.1, p.2))
    else
      (recur false r1).map (fun p => (ClassItem.single c1 :: p.1, p.2))

/-- Fueled parser for the items of a character class, up to and including
the closing `]`.  `first` is true at the first position, where a `]` is a
set member rather than the terminator.  `a-b` between two characters is a
range; a `-` just before the closing `]` is a literal. -/
def parseItemsF : Nat → Bool → List Char → Option (List ClassItem × List Char)
  | 0, _, _ => none
  | _ + 1, _, [] => none
  | f + 1, first, c :: rest =>
    if c = ']' ∧ first = false then some ([], rest)
    else
      match readClassChar first (c :: rest) with
      | none => none
      | some (c1, r1) => itemStep (parseItemsF f) c1 r1

/-- Parser for the items of a character class (wrapper with sufficient
fuel). -/
def parseItems (first : Bool) (l : List Char) : Option (List ClassItem × List Char) :=
  parseItemsF l.length first l

/-- Parse a class body (after the opening `[`): an optional leading `^`
negates the class, then the items up to the closing `]`. -/
def parseClass (l : List Char) : Option (Bool × List ClassItem × List Char) :=
  match l with
  | [] => none
  | c :: rest =>
    if c = '^' then (parseItems true rest).map (fun p => (true, p.1, p.2))
    else (parseItems true (c :: rest)).map (fun p => (false, p.1, p.2))

/-- Bare characters the fragment refuses outside a class (they have a
non-literal meaning for the engine): `( ) * + ? | ^ $ . [ \` and braces. -/
def badBare (c : Char) : Bool :=
  ['(', ')', '*', '+', '?', '|', '^', '$', '.', '[', '\\',
   Char.ofNat 123, Char.ofNat 125].contains c

/-- Parse one atom of the fragment. -/
def parseAtom1 (l : List Char) : Option (Atom × List Char) :=
  match l with
  | [] => none
  | c :: rest =>
    if c = '.' then some (Atom.dot, rest)
    else if c = '\\' then
      match rest with
      | [] => none
      | d :: rest2 =>
        if d = 'Z' then some (Atom.endAnchor, rest2)
        else if d.isAlphanum then none
        else some (Atom.lit d, rest2)
    else if c = '[' then
      (parseClass rest).map (fun p => (Atom.cls p.1 p.2.1, p.2.2))
    else if badBare c then none
    else some (Atom.lit c, rest)

/-- Fueled parser for a sequence of atoms, each optionally followed by a
`*` repetition. -/
def parseAtomsF : Nat → List Char → Option (List (Atom × Bool))
  | 0, l => if l = [] then some [] else none
  | _ + 1, [] => some []
  | f + 1, c :: cs =>
    match parseAtom1 (c :: cs) with
    | none => none
    | some (a, rest) =>
      match rest with
      | [] => (parseAtomsF f []).map (fun as => (a, false) :: as)
      | r :: r2 =>
        if r = '*' then (parseAtomsF f r2).map (fun as => (a, true) :: as)
        else (parseAtomsF f (r :: r2)).map (fun as => (a, false) :: as)

/-- Parser for a sequence of atoms (wrapper with sufficient fuel). -/
def parseAtoms (l : List Char) : Option (List (Atom × Bool)) :=
  parseAtomsF l.length l

/-- Parse a complete expression of the fragment: the `(?ms)` flag prefix
followed by the atoms. -/
def parseRegex (l : List Char) : Option (List (Atom × Bool)) :=
  match l with
  | '(' :: '?' :: 'm' :: 's' :: ')' :: rest => parseAtoms rest
  | _ => none

/-- Fueled backtracking matcher.  With `anchored = false` it realizes
`re.match` semantics: the atom list must match a prefix of the string
(success with atoms exhausted, whatever remains).  With `anchored = true`
it realizes whole-string semantics: the atoms must consume the entire
string.  `(a, true)` is `a*`; the `\Z` atom succeeds exactly at the end of
the string and consumes nothing. -/
def reMatchF (anchored : Bool) : Nat → List (Atom × Bool) → List Char → Bool
  | 0, _, _ => false
  | _ + 1, [], s => if anchored then s.isEmpty else true
  | f + 1, (a, true) :: rest, s =>
    reMatchF anchored f rest s ||
      (match s with
       | [] => false
       | c :: s2 => atomMatches a c && reMatchF anchored f ((a, true) :: rest) s2)
  | f + 1, (a, false) :: rest, s =>
    if a = Atom.endAnchor then s.isEmpty && reMatchF anchored f rest s
    else
      match s with
      | [] => false
      | c :: s2 => atomMatches a c && reMatchF anchored f rest s2

/-- `re.match` semantics of the compiled atoms: match anchored at the
start of the string only (wrapper with sufficient fuel). -/
def matchesFrom (ats : List (Atom × Bool)) (s : List Char) : Bool :=
  reMatchF false (ats.length + s.length + 1) ats s

/-- Whole-string match semantics of the compiled atoms, anchored at both
the start and the absolute end: the spec's notion of a full-string match
of the translated expression. -/
def matchesFull (ats : List (Atom × Bool)) (s : List Char) : Bool :=
  reMatchF true (ats.length + s.length + 1) ats s

/-! ## The match / filter API -/

/-- `_compile_pattern(pat)` followed by `.match(name) is not None`
(`fnmatchcase`).  The result is `none` when the engine rejects the
translated expression (a compile error would propagate as an exception);
this never happens — see `translate_total_wellformed`. -/
def fnmatchcase (name pat : List Char) : Option Bool :=
  (parseRegex (translate pat)).map (fun r => matchesFrom r name)

/-- Modelled from the spec: `os.path.normcase` is not part of this module.
On case-sensitive-filesystem platforms it is the identity. -/
def normcasePosix : List Char → List Char := id

/-- Modelled from the spec: on case-insensitive-filesystem platforms
`os.path.normcase` folds case consistently (lowercases). -/
def normcaseFold : List Char → List Char := List.map Char.toLower

/-- `fnmatch(name, pat)`: case-normalize both arguments with the host
convention `nc`, then delegate to `fnmatchcase`. -/
def fnmatch (nc : List Char → List Char) (name pat : List Char) : Option Bool :=
  fnmatchcase (nc name) (nc pat)

/-- `filter(names, pat)`: normalize the pattern once, compile it once,
then keep in order the names whose (on non-posix hosts, case-normalized)
form matches.  `posix` models the `os.path is posixpath` test of the
source; on posix hosts the per-name normalization is skipped because
`posixpath.normcase` is the identity. -/
def filter (posix : Bool) (nc : List Char → List Char)
    (names : List (List Char)) (pat : List Char) : Option (List (List Char)) :=
  match parseRegex (translate (nc pat)) with
  | none => none
  | some r =>
    some (if posix then names.filter (fun name => matchesFrom r name)
          else names.filter (fun name => matchesFrom r (nc name)))

/-! ## Length lemmas: every scanning / parsing step consumes input -/

theorem scanClose_length : ∀ {l s r : List Char}, scanClose l = some (s, r) → r.length < l.length := by
  intro l
  induction l with
  | nil => intro s r h; simp [scanClose] at h
  | cons c rest ih =>
    intro s r h
    by_cases hc : c = ']'
    · simp only [scanClose, if_pos hc, Option.some.injEq, Prod.mk.injEq] at h
      rw [← h.2]
      simp
    · simp only [scanClose, if_neg hc, Option.map_eq_some', Prod.mk.injEq] at h
      obtain ⟨p, hp, hpeq1, hpeq2⟩ := h
      have := ih (s := p.1) (r := p.2) (by rw [hp])
      rw [← hpeq2]
      simp only [List.length_cons]
      omega

theorem scanClose_not_mem : ∀ {l s r : List Char}, scanClose l = some (s, r) → ']' ∉ s := by
  intro l
  induction l with
  | nil => intro s r h; simp [scanClose] at h
  | cons c rest ih =>
    intro s r h
    by_cases hc : c = ']'
    · simp only [scanClose, if_pos hc, Option.some.injEq, Prod.mk.injEq] at h
      rw [← h.1]
      simp
    · simp only [scanClose, if_neg hc, Option.map_eq_some', Prod.mk.injEq] at h
      obtain ⟨p, hp, hpeq1, hpeq2⟩ := h
      have := ih (s := p.1) (r := p.2) (by rw [hp])
      rw [← hpeq1]
      intro hmem
      rcases List.mem_cons.mp hmem with h1 | h1
      · exact hc h1.symm
      · exact this h1

theorem scanClose_append {ms r : List Char} (h : ']' ∉ ms) :
    scanClose (ms ++ ']' :: r) = some (ms, r) := by
  induction ms with
  | nil => simp [scanClose]
  | cons c rest ih =>
    have hc : c ≠ ']' := by
      intro hc; exact h (by simp [hc])
    simp only [List.cons_append, scanClose, if_neg hc, List.append_eq]
    rw [ih (fun hm => h (List.mem_cons_of_mem _ hm))]
    rfl

theorem scanClose_none {l : List Char} (h : ']' ∉ l) : scanClose l = none := by
  induction l with
  | nil => rfl
  | cons c rest ih =>
    have hc : c ≠ ']' := by
      intro hc; exact h (by simp [hc])
    simp only [scanClose, if_neg hc]
    rw [ih (fun hm => h (List.mem_cons_of_mem _ hm))]
    rfl

theorem skipChar_snd_length (c : Char) (l : List Char) : (skipChar c l).2.length ≤ l.length := by
  match l with
  | [] => simp [skipChar]
  | d :: rest =>
    simp only [skipChar]
    split <;> simp

theorem scanGroup_length {l s r : List Char} (h : scanGroup l = some (s, r)) : r.length < l.length := by
  simp only [scanGroup, Option.map_eq_some', Prod.mk.injEq] at h
  obtain ⟨q, hq, hqeq1, hqeq2⟩ := h
  have h1 := scanClose_length (s := q.1) (r := q.2) (by rw [hq])
  have h2 := skipChar_snd_length ']' (skipChar '!' l).2
  have h3 := skipChar_snd_length '!' l
  rw [← hqeq2]
  omega

theorem readClassChar_length {first : Bool} {l : List Char} {c : Char} {r : List Char}
    (h : readClassChar first l = some (c, r)) : r.length < l.length := by
  match l with
  | [] => simp [readClassChar] at h
  | d :: rest =>
    simp only [readClassChar] at h
    split at h
    · match rest, h with
      | [], h => simp at h
      | e :: rest2, h =>
        dsimp only at h
        split at h
        · simp at h
        · simp only [Option.some.injEq, Prod.mk.injEq] at h
          rw [← h.2]
          simp only [List.length_cons]
          omega
    · split at h
      · split at h
        · simp only [Option.some.injEq, Prod.mk.injEq] at h
          rw [← h.2]
          simp only [List.length_cons]
          omega
        · simp at h
      · simp only [Option.some.injEq, Prod.mk.injEq] at h
        rw [← h.2]
        simp only [List.length_cons]
        omega

theorem itemStep_length
    {recur : Bool → List Char → Option (List ClassItem × List Char)}
    (hrec : ∀ (b : Bool) (x : List Char) (q : List ClassItem × List Char),
      recur b x = some q → q.2.length < x.length)
    {c1 : Char} {r1 : List Char} {p : List ClassItem × List Char}
    (h : itemStep recur c1 r1 = some p) : p.2.length < r1.length := by
  match r1, h with
  | d :: r2, h =>
    simp only [itemStep] at h
    split at h
    · match r2, h with
      | e :: r3, h =>
        dsimp only at h
        split at h
        · cases h
          simp only [List.length_cons]
          omega
        · cases h2 : readClassChar false (e :: r3) with
          | none => rw [h2] at h; simp at h
          | some c2r4 =>
            obtain ⟨c2, r4⟩ := c2r4
            rw [h2] at h
            dsimp only at h
            simp only [Option.map_eq_some'] at h
            obtain ⟨p', hp', hpeq⟩ := h
            have h3 := hrec false r4 p' hp'
            have h4 : r4.length < r3.length + 1 := by
              have := readClassChar_length h2
              simpa using this
            rw [← hpeq]
            simp only [List.length_cons]
            omega
    · simp only [Option.map_eq_some'] at h
      obtain ⟨p', hp', hpeq⟩ := h
      have h3 := hrec false (d :: r2) p' hp'
      rw [← hpeq]
      simp only [List.length_cons] at h3 ⊢
      omega

theorem parseItemsF_length : ∀ (f : Nat) (first : Bool) (l : List Char) (p : List ClassItem × List Char),
    parseItemsF f first l = some p → p.2.length < l.length := by
  intro f
  induction f with
  | zero => intro first l p h; simp [parseItemsF] at h
  | succ f ih =>
    intro first l p h
    match l with
    | [] => simp [parseItemsF] at h
    | c :: rest =>
      simp only [parseItemsF] at h
      split at h
      · cases h
        simp
      · cases h1 : readClassChar first (c :: rest) with
        | none => rw [h1] at h; simp at h
        | some cr =>
          obtain ⟨c1, r1⟩ := cr
          rw [h1] at h
          dsimp only at h
          have h2 := itemStep_length (fun b x q hq => ih b x q hq) h
          have h3 : r1.length < rest.length + 1 := by
            have := readClassChar_length h1
            simpa using this
          simp only [List.length_cons]
          omega

theorem parseItems_length {first : Bool} {l : List Char} {p : List ClassItem × List Char}
    (h : parseItems first l = some p) : p.2.length < l.length :=
  parseItemsF_length _ _ _ _ h

theorem parseClass_length {l : List Char} {p : Bool × List ClassItem × List Char}
    (h : parseClass l = some p) : p.2.2.length < l.length := by
  match l with
  | [] => simp [parseClass] at h
  | c :: rest =>
    simp only [parseClass] at h
    split at h
    · simp only [Option.map_eq_some'] at h
      obtain ⟨p', hp', hpeq⟩ := h
      have := parseItems_length hp'
      rw [← hpeq]
      simp only [List.length_cons]
      omega
    · simp only [Option.map_eq_some'] at h
      obtain ⟨p', hp', hpeq⟩ := h
      have := parseItems_length hp'
      rw [← hpeq]
      exact this

theorem parseAtom1_length {l : List Char} {a : Atom} {r : List Char}
    (h : parseAtom1 l = some (a, r)) : r.length < l.length := by
  match l with
  | [] => simp [parseAtom1] at h
  | c :: rest =>
    simp only [parseAtom1] at h
    split at h
    · cases h; simp
    · split at h
      · match rest, h with
        | [], h => simp at h
        | d :: rest2, h =>
          dsimp only at h
          split at h
          · cases h; simp; omega
          · split at h
            · simp at h
            · cases h; simp; omega
      · split at h
        · simp only [Option.map_eq_some'] at h
          obtain ⟨p', hp', hpeq⟩ := h
          have := parseClass_length hp'
          cases hpeq
          simp only [List.length_cons]
          omega
        · split at h
          · simp at h
          · cases h; simp

/-! ## Fuel sufficiency: the wrappers supply enough fuel -/

theorem transF_spec : ∀ (f : Nat) (l : List Char), l.length ≤ f → transF f l = trans l := by
  intro f
  induction f using Nat.strong_induction_on with
  | _ f ih =>
    intro l hl
    match f, l with
    | 0, [] => rfl
    | f + 1, [] => rfl
    | f + 1, c :: rest =>
      show transF (f + 1) (c :: rest) = transF (rest.length + 1) (c :: rest)
      have hrest : rest.length ≤ f := by simpa using hl
      have e1 : transF f rest = transF rest.length rest := by
        rw [ih f (by omega) rest hrest, trans]
      simp only [transF]
      split
      · rw [e1]
      · split
        · rw [e1]
        · split
          · cases hg : scanGroup rest with
            | none => simp only [e1]
            | some q =>
              obtain ⟨stuff, rem⟩ := q
              have hrem : rem.length < rest.length := scanGroup_length hg
              have e2 : transF f rem = transF rem.length rem := by
                rw [ih f (by omega) rem (by omega), trans]
              have e3 : transF rest.length rem = transF rem.length rem := by
                rw [ih rest.length (by omega) rem (by omega), trans]
              simp only [e2, e3]
          · rw [e1]

theorem itemStep_congr
    {recur1 recur2 : Bool → List Char → Option (List ClassItem × List Char)}
    {c1 : Char} {r1 : List Char}
    (h : ∀ (b : Bool) (x : List Char), x.length ≤ r1.length → recur1 b x = recur2 b x) :
    itemStep recur1 c1 r1 = itemStep recur2 c1 r1 := by
  match r1 with
  | [] => rfl
  | d :: r2 =>
    simp only [itemStep]
    split
    · match r2 with
      | [] => rfl
      | e :: r3 =>
        dsimp only
        split
        · rfl
        · cases h2 : readClassChar false (e :: r3) with
          | none => rfl
          | some c2r4 =>
            obtain ⟨c2, r4⟩ := c2r4
            dsimp only
            have h4 : r4.length < r3.length + 1 := by
              have := readClassChar_length h2
              simpa using this
            rw [h false r4 (by simp only [List.length_cons]; omega)]
    · rw [h false (d :: r2) (by simp)]

theorem parseItemsF_spec : ∀ (f : Nat) (first : Bool) (l : List Char),
    l.length ≤ f → parseItemsF f first l = parseItems first l := by
  intro f
  induction f using Nat.strong_induction_on with
  | _ f ih =>
    intro first l hl
    match f, l with
    | 0, [] => rfl
    | f + 1, [] => rfl
    | 0, c :: rest => simp at hl
    | f + 1, c :: rest =>
      show parseItemsF (f + 1) first (c :: rest) = parseItemsF (rest.length + 1) first (c :: rest)
      have hrest : rest.length ≤ f := by simpa using hl
      simp only [parseItemsF]
      split
      · rfl
      · cases h1 : readClassChar first (c :: rest) with
        | none => rfl
        | some cr =>
          obtain ⟨c1, r1⟩ := cr
          dsimp only
          have hr1 : r1.length ≤ rest.length := by
            have := readClassChar_length h1
            simp only [List.length_cons] at this
            omega
          apply itemStep_congr
          intro b x hx
          rw [ih f (by omega) b x (by omega), ih rest.length (by omega) b x (by omega)]

theorem parseAtomsF_spec : ∀ (f : Nat) (l : List Char),
    l.length ≤ f → parseAtomsF f l = parseAtoms l := by
  intro f
  induction f using Nat.strong_induction_on with
  | _ f ih =>
    intro l hl
    match f, l with
    | 0, [] => rfl
    | f + 1, [] => rfl
    | f + 1, c :: cs =>
      show parseAtomsF (f + 1) (c :: cs) = parseAtomsF (cs.length + 1) (c :: cs)
      have hcs : cs.length ≤ f := by simpa using hl
      simp only [parseAtomsF]
      cases h1 : parseAtom1 (c :: cs) with
      | none => rfl
      | some ar =>
        obtain ⟨a, rest⟩ := ar
        have hrest : rest.length < cs.length + 1 := by
          have := parseAtom1_length h1
          simpa using this
        match rest, hrest with
        | [], _ =>
          have e1 : parseAtomsF f [] = parseAtoms [] := ih f (by omega) [] (by simp)
          have e2 : parseAtomsF cs.length [] = parseAtoms [] := by
            cases hn : cs.length with
            | zero => rfl
            | succ n => rw [← hn]; exact ih cs.length (by omega) [] (by simp)
          rw [e1, e2]
        | r :: r2, hrest =>
          dsimp only
          split
          · have e1 : parseAtomsF f r2 = parseAtoms r2 := by
              apply ih f (by omega) r2
              simp only [List.length_cons] at hrest
              omega
            have e2 : parseAtomsF cs.length r2 = parseAtoms r2 := by
              apply ih cs.length (by omega) r2
              simp only [List.length_cons] at hrest
              omega
            rw [e1, e2]
          · have e1 : parseAtomsF f (r :: r2) = parseAtoms (r :: r2) := by
              apply ih f (by omega) (r :: r2)
              omega
            have e2 : parseAtomsF cs.length (r :: r2) = parseAtoms (r :: r2) := by
              apply ih cs.length (by omega) (r :: r2)
              omega
            rw [e1, e2]

theorem reMatchF_congr : ∀ (f1 f2 : Nat) (anchored : Bool) (ats : List (Atom × Bool)) (s : List Char),
    ats.length + s.length < f1 → ats.length + s.length < f2 →
    reMatchF anchored f1 ats s = reMatchF anchored f2 ats s := by
  intro f1
  induction f1 using Nat.strong_induction_on with
  | _ f1 ih =>
    intro f2 anchored ats s h1 h2
    match f1, f2 with
    | 0, _ => exact absurd h1 (by omega)
    | _ + 1, 0 => exact absurd h2 (by omega)
    | g1 + 1, g2 + 1 =>
      match ats with
      | [] => simp only [reMatchF]
      | (a, true) :: rest =>
        simp only [List.length_cons] at h1 h2
        simp only [reMatchF]
        have e1 : reMatchF anchored g1 rest s = reMatchF anchored g2 rest s :=
          ih g1 (by omega) g2 anchored rest s (by omega) (by omega)
        rw [e1]
        match s with
        | [] => rfl
        | c :: s2 =>
          simp only [List.length_cons] at h1 h2
          have e2 : reMatchF anchored g1 ((a, true) :: rest) s2
              = reMatchF anchored g2 ((a, true) :: rest) s2 :=
            ih g1 (by omega) g2 anchored ((a, true) :: rest) s2
              (by simp only [List.length_cons]; omega)
              (by simp only [List.length_cons]; omega)
          dsimp only
          rw [e2]
      | (a, false) :: rest =>
        simp only [List.length_cons] at h1 h2
        simp only [reMatchF]
        split
        · have e1 : reMatchF anchored g1 rest s = reMatchF anchored g2 rest s :=
            ih g1 (by omega) g2 anchored rest s (by omega) (by omega)
          rw [e1]
        · match s with
          | [] => rfl
          | c :: s2 =>
            simp only [List.length_cons] at h1 h2
            have e1 : reMatchF anchored g1 rest s2 = reMatchF anchored g2 rest s2 :=
              ih g1 (by omega) g2 anchored rest s2 (by omega) (by omega)
            dsimp only
            rw [e1]

theorem reMatchF_from {f : Nat} {ats : List (Atom × Bool)} {s : List Char}
    (h : ats.length + s.length < f) : reMatchF false f ats s = matchesFrom ats s :=
  reMatchF_congr f (ats.length + s.length + 1) false ats s h (by omega)

theorem reMatchF_full {f : Nat} {ats : List (Atom × Bool)} {s : List Char}
    (h : ats.length + s.length < f) : reMatchF true f ats s = matchesFull ats s :=
  reMatchF_congr f (ats.length + s.length + 1) true ats s h (by omega)

/-! ## One-step unfolding lemmas for the fueled wrappers -/

theorem trans_nil : trans [] = [] := rfl

theorem trans_cons (c : Char) (rest : List Char) :
    trans (c :: rest) =
      if c = '*' then '.' :: '*' :: trans rest
      else if c = '?' then '.' :: trans rest
      else if c = '[' then
        match scanGroup rest with
        | none => '\\' :: '[' :: trans rest
        | some (stuff, rem) =>
          '[' :: (fixHead (doubleBackslashes stuff) ++ ']' :: trans rem)
      else escapeChar c ++ trans rest := by
  show transF (rest.length + 1) (c :: rest) = _
  simp only [transF]
  have e1 : transF rest.length rest = trans rest := rfl
  rw [e1]
  split
  · rfl
  · split
    · rfl
    · split
      · cases hg : scanGroup rest with
        | none => rfl
        | some q =>
          obtain ⟨stuff, rem⟩ := q
          dsimp only
          rw [transF_spec rest.length rem (by have := scanGroup_length hg; omega)]
      · rfl

theorem parseAtomsF_nilInput (f : Nat) : parseAtomsF f [] = some [] := by
  cases f <;> rfl

theorem parseAtoms_nil : parseAtoms [] = some [] := rfl

theorem parseAtoms_cons (x : Char) (xs : List Char) :
    parseAtoms (x :: xs) =
      match parseAtom1 (x :: xs) with
      | none => none
      | some (a, rest) =>
        match rest with
        | [] => some [(a, false)]
        | r :: r2 =>
          if r = '*' then (parseAtoms r2).map (fun as => (a, true) :: as)
          else (parseAtoms (r :: r2)).map (fun as => (a, false) :: as) := by
  show parseAtomsF (xs.length + 1) (x :: xs) = _
  simp only [parseAtomsF]
  cases h1 : parseAtom1 (x :: xs) with
  | none => rfl
  | some ar =>
    obtain ⟨a, rest⟩ := ar
    have hrest : rest.length < xs.length + 1 := by
      have := parseAtom1_length h1
      simpa using this
    dsimp only
    match rest, hrest with
    | [], _ =>
      dsimp only
      rw [parseAtomsF_nilInput]
      rfl
    | r :: r2, hrest =>
      dsimp only
      split
      · rw [parseAtomsF_spec xs.length r2 (by simp only [List.length_cons] at hrest; omega)]
      · rw [parseAtomsF_spec xs.length (r :: r2) (by omega)]

theorem parseItems_cons (first : Bool) (c : Char) (rest : List Char) :
    parseItems first (c :: rest) =
      if c = ']' ∧ first = false then some ([], rest)
      else
        match readClassChar first (c :: rest) with
        | none => none
        | some (c1, r1) => itemStep parseItems c1 r1 := by
  show parseItemsF (rest.length + 1) first (c :: rest) = _
  simp only [parseItemsF]
  split
  · rfl
  · cases h1 : readClassChar first (c :: rest) with
    | none => rfl
    | some cr =>
      obtain ⟨c1, r1⟩ := cr
      dsimp only
      have hr1 : r1.length ≤ rest.length := by
        have := readClassChar_length h1
        simp only [List.length_cons] at this
        omega
      apply itemStep_congr
      intro b x hx
      exact parseItemsF_spec rest.length b x (by omega)

/-! ## One-step lemmas for the matchers -/

theorem matchesFrom_nil (s : List Char) : matchesFrom [] s = true := by
  rw [matchesFrom, reMatchF]
  rfl

theorem matchesFull_nil (s : List Char) : matchesFull [] s = s.isEmpty := by
  rw [matchesFull, reMatchF]
  rfl

theorem matchesFrom_anchor (rest : List (Atom × Bool)) (s : List Char) :
    matchesFrom ((Atom.endAnchor, false) :: rest) s = (s.isEmpty && matchesFrom rest s) := by
  match s with
  | [] =>
    show reMatchF false ((rest.length + 1) + [].length + 1) ((Atom.endAnchor, false) :: rest) [] = _
    rw [reMatchF, if_pos rfl, reMatchF_from (by simp only [List.length_nil]; omega)]
  | c :: s2 =>
    show reMatchF false ((rest.length + 1) + (s2.length + 1) + 1) ((Atom.endAnchor, false) :: rest) (c :: s2) = _
    rw [reMatchF, if_pos rfl, reMatchF_from (by simp only [List.length_cons]; omega)]

theorem matchesFrom_star_nil (a : Atom) (rest : List (Atom × Bool)) :
    matchesFrom ((a, true) :: rest) [] = matchesFrom rest [] := by
  show reMatchF false ((rest.length + 1) + [].length + 1) ((a, true) :: rest) [] = _
  rw [reMatchF, reMatchF_from (by simp only [List.length_nil]; omega)]
  simp

theorem matchesFrom_star_cons (a : Atom) (rest : List (Atom × Bool)) (c : Char) (s2 : List Char) :
    matchesFrom ((a, true) :: rest) (c :: s2) =
      (matchesFrom rest (c :: s2) || (atomMatches a c && matchesFrom ((a, true) :: rest) s2)) := by
  show reMatchF false ((rest.length + 1) + (s2.length + 1) + 1) ((a, true) :: rest) (c :: s2) = _
  rw [reMatchF]
  rw [reMatchF_from (by simp only [List.length_cons]; omega),
      reMatchF_from (by simp only [List.length_cons]; omega)]

theorem matchesFrom_consume_nil (a : Atom) (rest : List (Atom × Bool))
    (h : a ≠ Atom.endAnchor) : matchesFrom ((a, false) :: rest) [] = false := by
  show reMatchF false ((rest.length + 1) + [].length + 1) ((a, false) :: rest) [] = _
  rw [reMatchF, if_neg h]

theorem matchesFrom_consume_cons (a : Atom) (rest : List (Atom × Bool)) (c : Char) (s2 : List Char)
    (h : a ≠ Atom.endAnchor) :
    matchesFrom ((a, false) :: rest) (c :: s2) = (atomMatches a c && matchesFrom rest s2) := by
  show reMatchF false ((rest.length + 1) + (s2.length + 1) + 1) ((a, false) :: rest) (c :: s2) = _
  rw [reMatchF, if_neg h]
  rw [reMatchF_from (by omega)]

theorem matchesFull_anchor (rest : List (Atom × Bool)) (s : List Char) :
    matchesFull ((Atom.endAnchor, false) :: rest) s = (s.isEmpty && matchesFull rest s) := by
  match s with
  | [] =>
    show reMatchF true ((rest.length + 1) + [].length + 1) ((Atom.endAnchor, false) :: rest) [] = _
    rw [reMatchF, if_pos rfl, reMatchF_full (by simp only [List.length_nil]; omega)]
  | c :: s2 =>
    show reMatchF true ((rest.length + 1) + (s2.length + 1) + 1) ((Atom.endAnchor, false) :: rest) (c :: s2) = _
    rw [reMatchF, if_pos rfl, reMatchF_full (by simp only [List.length_cons]; omega)]

theorem matchesFull_star_nil (a : Atom) (rest : List (Atom × Bool)) :
    matchesFull ((a, true) :: rest) [] = matchesFull rest [] := by
  show reMatchF true ((rest.length + 1) + [].length + 1) ((a, true) :: rest) [] = _
  rw [reMatchF, reMatchF_full (by simp only [List.length_nil]; omega)]
  simp

theorem matchesFull_star_cons (a : Atom) (rest : List (Atom × Bool)) (c : Char) (s2 : List Char) :
    matchesFull ((a, true) :: rest) (c :: s2) =
      (matchesFull rest (c :: s2) || (atomMatches a c && matchesFull ((a, true) :: rest) s2)) := by
  show reMatchF true ((rest.length + 1) + (s2.length + 1) + 1) ((a, true) :: rest) (c :: s2) = _
  rw [reMatchF]
  rw [reMatchF_full (by simp only [List.length_cons]; omega),
      reMatchF_full (by simp only [List.length_cons]; omega)]

theorem matchesFull_consume_nil (a : Atom) (rest : List (Atom × Bool))
    (h : a ≠ Atom.endAnchor) : matchesFull ((a, false) :: rest) [] = false := by
  show reMatchF true ((rest.length + 1) + [].length + 1) ((a, false) :: rest) [] = _
  rw [reMatchF, if_neg h]

theorem matchesFull_consume_cons (a : Atom) (rest : List (Atom × Bool)) (c : Char) (s2 : List Char)
    (h : a ≠ Atom.endAnchor) :
    matchesFull ((a, false) :: rest) (c :: s2) = (atomMatches a c && matchesFull rest s2) := by
  show reMatchF true ((rest.length + 1) + (s2.length + 1) + 1) ((a, false) :: rest) (c :: s2) = _
  rw [reMatchF, if_neg h]
  rw [reMatchF_full (by omega)]

/-! ## Well-formedness of emitted class bodies

After backslash doubling, every backslash in a class body starts a
two-character escape, and `]` never occurs bare.  `ClsUnits` captures this
shape; the item parser always finds the appended closing `]` on such
bodies. -/

/-- Class-body text made of units: each unit is a backslash escape of a
non-alphanumeric character, or a plain character other than `]` and `\`. -/
inductive ClsUnits : List Char → Prop where
  | nil : ClsUnits []
  | esc {c : Char} {l : List Char} :
      c.isAlphanum = false → ClsUnits l → ClsUnits ('\\' :: c :: l)
  | chr {c : Char} {l : List Char} :
      c ≠ ']' → c ≠ '\\' → ClsUnits l → ClsUnits (c :: l)

theorem doubleBackslashes_units {s : List Char} (h : ']' ∉ s) :
    ClsUnits (doubleBackslashes s) := by
  induction s with
  | nil => exact ClsUnits.nil
  | cons c rest ih =>
    have hc : c ≠ ']' := fun hc => h (by simp [hc])
    have hrest : ']' ∉ rest := fun hm => h (List.mem_cons_of_mem _ hm)
    by_cases hb : c = '\\'
    · subst hb
      simp only [doubleBackslashes, if_pos rfl]
      exact ClsUnits.esc (by decide) (ih hrest)
    · simp only [doubleBackslashes, if_neg hb]
      exact ClsUnits.chr hc hb (ih hrest)

theorem doubleBackslashes_ne_nil {c : Char} {l : List Char} :
    doubleBackslashes (c :: l) ≠ [] := by
  simp only [doubleBackslashes]
  split <;> simp

/-- Admissible input shape for the class-item parser: unit text (nonempty
when at the first position), or — only at the first position — a literal
`]` member followed by unit text. -/
def HeadOk (first : Bool) (content : List Char) : Prop :=
  (ClsUnits content ∧ (first = true → content ≠ [])) ∨
    (first = true ∧ ∃ t, content = ']' :: t ∧ ClsUnits t)

theorem parseItems_cont (n : Nat)
    (ih : ∀ (content : List Char), content.length ≤ n → ∀ (first : Bool) (rest : List Char),
      HeadOk first content → ∃ items, parseItems first (content ++ ']' :: rest) = some (items, rest))
    (tail : List Char) (htl : tail.length ≤ n) (hunits : ClsUnits tail)
    (c1 : Char) (rest : List Char) :
    ∃ items, itemStep parseItems c1 (tail ++ ']' :: rest) = some (items, rest) := by
  cases hunits with
  | nil =>
    obtain ⟨items0, h0⟩ := ih [] (by simp) false rest (Or.inl ⟨ClsUnits.nil, by simp⟩)
    rw [List.nil_append] at h0
    refine ⟨ClassItem.single c1 :: items0, ?_⟩
    rw [List.nil_append]
    simp only [itemStep]
    rw [if_neg (by decide : ¬(']' : Char) = '-')]
    rw [h0]
    rfl
  | esc hna hrest =>
    rename_i d t
    obtain ⟨items0, h0⟩ := ih ('\\' :: d :: t) htl false rest
      (Or.inl ⟨ClsUnits.esc hna hrest, by simp⟩)
    refine ⟨ClassItem.single c1 :: items0, ?_⟩
    rw [List.cons_append, List.cons_append]
    simp only [itemStep]
    rw [if_neg (by decide : ¬('\\' : Char) = '-')]
    rw [← List.cons_append, ← List.cons_append, h0]
    rfl
  | chr h1 h2 hrest =>
    rename_i e t
    by_cases he : e = '-'
    · subst he
      cases hrest with
      | nil =>
        refine ⟨[ClassItem.single c1, ClassItem.single '-'], ?_⟩
        rw [List.cons_append, List.nil_append]
        simp only [itemStep]
        simp only [if_true]
      | esc hna2 ht =>
        rename_i d2 t2
        obtain ⟨items0, h0⟩ := ih t2 (by simp only [List.length_cons] at htl; omega) false rest
          (Or.inl ⟨ht, by simp⟩)
        refine ⟨ClassItem.range c1 d2 :: items0, ?_⟩
        rw [List.cons_append, List.cons_append, List.cons_append]
        simp only [itemStep]
        simp only [if_true]
        rw [if_neg (by decide : ¬('\\' : Char) = ']')]
        have hread : readClassChar false ('\\' :: d2 :: (t2 ++ ']' :: rest))
            = some (d2, t2 ++ ']' :: rest) := by
          simp only [readClassChar]
          rw [if_neg (show ¬(d2.isAlphanum = true) by simp [hna2])]
          simp only [if_true]
        rw [hread]
        dsimp only
        rw [h0]
        rfl
      | chr h1b h2b ht =>
        rename_i e2 t2
        obtain ⟨items0, h0⟩ := ih t2 (by simp only [List.length_cons] at htl; omega) false rest
          (Or.inl ⟨ht, by simp⟩)
        refine ⟨ClassItem.range c1 e2 :: items0, ?_⟩
        rw [List.cons_append, List.cons_append]
        simp only [itemStep]
        simp only [if_true]
        rw [if_neg h1b]
        have hread : readClassChar false (e2 :: (t2 ++ ']' :: rest))
            = some (e2, t2 ++ ']' :: rest) := by
          simp only [readClassChar]
          rw [if_neg h2b, if_neg h1b]
        rw [hread]
        dsimp only
        rw [h0]
        rfl
    · obtain ⟨items0, h0⟩ := ih (e :: t) htl false rest
        (Or.inl ⟨ClsUnits.chr h1 h2 hrest, by simp⟩)
      refine ⟨ClassItem.single c1 :: items0, ?_⟩
      rw [List.cons_append]
      simp only [itemStep]
      rw [if_neg he]
      rw [← List.cons_append, h0]
      rfl

theorem parseItems_closes : ∀ (n : Nat) (content : List Char), content.length ≤ n →
    ∀ (first : Bool) (rest : List Char), HeadOk first content →
    ∃ items, parseItems first (content ++ ']' :: rest) = some (items, rest) := by
  intro n
  induction n with
  | zero =>
    intro content hn first rest hok
    have hc : content = [] := by
      cases content with
      | nil => rfl
      | cons => simp at hn
    subst hc
    rcases hok with ⟨hunits, hne⟩ | ⟨hfirst, t, ht, _⟩
    · cases first with
      | true => exact absurd rfl (hne rfl)
      | false =>
        refine ⟨[], ?_⟩
        rw [List.nil_append, parseItems_cons, if_pos ⟨rfl, rfl⟩]
    · simp at ht
  | succ n ih =>
    intro content hn first rest hok
    rcases hok with ⟨hunits, hne⟩ | ⟨hfirst, t, ht, hunits⟩
    · cases hunits with
      | nil =>
        cases first with
        | true => exact absurd rfl (hne rfl)
        | false =>
          refine ⟨[], ?_⟩
          rw [List.nil_append, parseItems_cons, if_pos ⟨rfl, rfl⟩]
      | esc hna hrest =>
        rename_i d tail
        obtain ⟨items, hit⟩ := parseItems_cont n ih tail
          (by simp only [List.length_cons] at hn; omega) hrest d rest
        refine ⟨items, ?_⟩
        rw [List.cons_append, List.cons_append, parseItems_cons,
          if_neg (fun hx => (by decide : ¬('\\' : Char) = ']') hx.1)]
        have hread : readClassChar first ('\\' :: d :: (tail ++ ']' :: rest))
            = some (d, tail ++ ']' :: rest) := by
          simp only [readClassChar]
          rw [if_neg (show ¬(d.isAlphanum = true) by simp [hna])]
          simp only [if_true]
        rw [hread]
        dsimp only
        exact hit
      | chr h1 h2 hrest =>
        rename_i e tail
        obtain ⟨items, hit⟩ := parseItems_cont n ih tail
          (by simp only [List.length_cons] at hn; omega) hrest e rest
        refine ⟨items, ?_⟩
        rw [List.cons_append, parseItems_cons, if_neg (fun hx => h1 hx.1)]
        have hread : readClassChar first (e :: (tail ++ ']' :: rest))
            = some (e, tail ++ ']' :: rest) := by
          simp only [readClassChar]
          rw [if_neg h2, if_neg h1]
        rw [hread]
        dsimp only
        exact hit
    · subst ht
      subst hfirst
      obtain ⟨items, hit⟩ := parseItems_cont n ih t
        (by simp only [List.length_cons] at hn; omega) hunits ']' rest
      refine ⟨items, ?_⟩
      rw [List.cons_append, parseItems_cons,
        if_neg (fun hx => (by decide : ¬(true = false)) hx.2)]
      have hread : readClassChar true (']' :: (t ++ ']' :: rest))
          = some (']', t ++ ']' :: rest) := by
        simp only [readClassChar]
        rw [if_neg (by decide : ¬(']' : Char) = '\\')]
        simp only [if_true]
      rw [hread]
      dsimp only
      exact hit

/-- Every class body emitted by the translator parses to the appended
closing bracket. -/
theorem parseItems_headOk (content : List Char) (first : Bool) (rest : List Char)
    (hok : HeadOk first content) :
    ∃ items, parseItems first (content ++ ']' :: rest) = some (items, rest) :=
  parseItems_closes content.length content (le_refl _) first rest hok

/-! ## The translated form of a terminated bracket group always parses -/

theorem skipChar_pos {c d : Char} (rest : List Char) (h : d = c) :
    skipChar c (d :: rest) = ([d], rest) := by
  simp [skipChar, h]

theorem skipChar_neg {c d : Char} (rest : List Char) (h : d ≠ c) :
    skipChar c (d :: rest) = ([], d :: rest) := by
  simp [skipChar, h]

theorem scanGroup_eq (l : List Char) :
    scanGroup l = (scanClose (skipChar ']' (skipChar '!' l).2).2).map
      (fun q => ((skipChar '!' l).1 ++ ((skipChar ']' (skipChar '!' l).2).1 ++ q.1), q.2)) := rfl

theorem doubleBackslashes_cons_bs (l : List Char) :
    doubleBackslashes ('\\' :: l) = '\\' :: '\\' :: doubleBackslashes l := by
  simp only [doubleBackslashes]
  simp only [if_true]

theorem doubleBackslashes_cons {c : Char} (l : List Char) (h : c ≠ '\\') :
    doubleBackslashes (c :: l) = c :: doubleBackslashes l := by
  simp only [doubleBackslashes, if_neg h]

theorem fixHead_bang (l : List Char) : fixHead ('!' :: l) = '^' :: l := by
  simp only [fixHead]
  simp only [if_true]

theorem fixHead_caret (l : List Char) : fixHead ('^' :: l) = '\\' :: '^' :: l := by
  simp only [fixHead, if_neg (by decide : ¬('^' : Char) = '!')]
  simp only [if_true]

theorem fixHead_other {c : Char} (l : List Char) (h1 : c ≠ '!') (h2 : c ≠ '^') :
    fixHead (c :: l) = c :: l := by
  simp only [fixHead, if_neg h1, if_neg h2]

theorem parseClass_caret (l : List Char) :
    parseClass ('^' :: l) = (parseItems true l).map (fun p => (true, p.1, p.2)) := by
  simp only [parseClass]
  simp only [if_true]

theorem parseClass_other {c : Char} (l : List Char) (h : c ≠ '^') :
    parseClass (c :: l) = (parseItems true (c :: l)).map (fun p => (false, p.1, p.2)) := by
  simp only [parseClass, if_neg h]

theorem scanClose_cons_ne {c : Char} {l1 sc rem : List Char}
    (h : scanClose (c :: l1) = some (sc, rem)) (hc : c ≠ ']') : ∃ sc2, sc = c :: sc2 := by
  simp only [scanClose, if_neg hc, Option.map_eq_some', Prod.mk.injEq] at h
  obtain ⟨p, hp, h1, h2⟩ := h
  exact ⟨p.1, h1.symm⟩

/-- The scanned content of every terminated bracket group, after backslash
doubling and the head fix-up, parses as a character class body up to the
appended closing `]`: `translate` never emits a malformed class. -/
theorem parseClass_closes {l stuff rem : List Char} (h : scanGroup l = some (stuff, rem))
    (rest : List Char) :
    ∃ neg items,
      parseClass (fixHead (doubleBackslashes stuff) ++ ']' :: rest) = some (neg, items, rest) := by
  match l with
  | [] => simp [scanGroup, skipChar, scanClose] at h
  | c0 :: l1 =>
    by_cases hbang : c0 = '!'
    · subst hbang
      match l1 with
      | [] => simp [scanGroup, skipChar, scanClose] at h
      | c1 :: l2 =>
        by_cases hrb : c1 = ']'
        · subst hrb
          -- pattern `[!]...]`: content starts `!]`
          rw [scanGroup_eq] at h
          simp only [skipChar_pos _ rfl] at h
          simp only [Option.map_eq_some', Prod.mk.injEq] at h
          obtain ⟨q, hq, h1, h2⟩ := h
          have hmem : ']' ∉ q.1 := scanClose_not_mem (s := q.1) (r := q.2) (by rw [hq])
          rw [← h1]
          simp only [List.cons_append, List.nil_append, List.singleton_append]
          rw [doubleBackslashes_cons (']' :: q.1) (by decide),
            doubleBackslashes_cons (q.1) (by decide), fixHead_bang, List.cons_append,
            parseClass_caret]
          obtain ⟨items, hi⟩ := parseItems_headOk (']' :: doubleBackslashes q.1) true rest
            (Or.inr ⟨rfl, doubleBackslashes q.1, rfl, doubleBackslashes_units hmem⟩)
          rw [hi]
          exact ⟨true, items, rfl⟩
        · -- pattern `[!x...]`: negation with ordinary first member
          rw [scanGroup_eq] at h
          simp only [skipChar_pos _ rfl, skipChar_neg _ hrb] at h
          simp only [Option.map_eq_some', Prod.mk.injEq] at h
          obtain ⟨q, hq, h1, h2⟩ := h
          have hmem : ']' ∉ q.1 := scanClose_not_mem (s := q.1) (r := q.2) (by rw [hq])
          obtain ⟨sc2, hsc⟩ := scanClose_cons_ne (by rw [hq]) hrb
          rw [← h1]
          simp only [List.cons_append, List.nil_append, List.singleton_append]
          rw [doubleBackslashes_cons (q.1) (by decide), fixHead_bang, List.cons_append,
            parseClass_caret]
          obtain ⟨items, hi⟩ := parseItems_headOk (doubleBackslashes q.1) true rest
            (Or.inl ⟨doubleBackslashes_units hmem, fun _ => by
              rw [hsc]
              exact doubleBackslashes_ne_nil⟩)
          rw [hi]
          exact ⟨true, items, rfl⟩
    · by_cases hrb : c0 = ']'
      · subst hrb
        -- pattern `[]...]`: literal `]` first member
        rw [scanGroup_eq] at h
        simp only [skipChar_neg _ hbang, skipChar_pos _ rfl] at h
        simp only [Option.map_eq_some', Prod.mk.injEq] at h
        obtain ⟨q, hq, h1, h2⟩ := h
        have hmem : ']' ∉ q.1 := scanClose_not_mem (s := q.1) (r := q.2) (by rw [hq])
        rw [← h1]
        simp only [List.cons_append, List.nil_append, List.singleton_append]
        rw [doubleBackslashes_cons (q.1) (by decide),
          fixHead_other _ (by decide) (by decide), List.cons_append,
          parseClass_other _ (by decide)]
        obtain ⟨items, hi⟩ := parseItems_headOk (']' :: doubleBackslashes q.1) true rest
          (Or.inr ⟨rfl, doubleBackslashes q.1, rfl, doubleBackslashes_units hmem⟩)
        rw [List.cons_append] at hi
        rw [hi]
        exact ⟨false, items, rfl⟩
      · -- ordinary first character
        rw [scanGroup_eq] at h
        simp only [skipChar_neg _ hbang, skipChar_neg _ hrb] at h
        simp only [Option.map_eq_some', Prod.mk.injEq, List.nil_append] at h
        obtain ⟨q, hq, h1, h2⟩ := h
        have hmem : ']' ∉ q.1 := scanClose_not_mem (s := q.1) (r := q.2) (by rw [hq])
        obtain ⟨sc2, hsc⟩ := scanClose_cons_ne (by rw [hq]) hrb
        have hmem2 : ']' ∉ sc2 := by
          intro hx
          exact hmem (by rw [hsc]; exact List.mem_cons_of_mem _ hx)
        rw [← h1, hsc]
        by_cases hbs : c0 = '\\'
        · subst hbs
          rw [doubleBackslashes_cons_bs, fixHead_other _ (by decide) (by decide),
            List.cons_append, List.cons_append, parseClass_other _ (by decide)]
          obtain ⟨items, hi⟩ := parseItems_headOk ('\\' :: '\\' :: doubleBackslashes sc2) true rest
            (Or.inl ⟨ClsUnits.esc (by decide) (doubleBackslashes_units hmem2), by simp⟩)
          rw [List.cons_append, List.cons_append] at hi
          rw [hi]
          exact ⟨false, items, rfl⟩
        · by_cases hcar : c0 = '^'
          · subst hcar
            rw [doubleBackslashes_cons _ (by decide), fixHead_caret,
              List.cons_append, List.cons_append, parseClass_other _ (by decide)]
            obtain ⟨items, hi⟩ := parseItems_headOk ('\\' :: '^' :: doubleBackslashes sc2) true rest
              (Or.inl ⟨ClsUnits.esc (by decide) (doubleBackslashes_units hmem2), by simp⟩)
            rw [List.cons_append, List.cons_append] at hi
            rw [hi]
            exact ⟨false, items, rfl⟩
          · have hc0r : c0 ≠ ']' := hrb
            rw [doubleBackslashes_cons _ hbs, fixHead_other _ hbang hcar,
              List.cons_append, parseClass_other _ hcar]
            obtain ⟨items, hi⟩ := parseItems_headOk (c0 :: doubleBackslashes sc2) true rest
              (Or.inl ⟨ClsUnits.chr hc0r hbs (doubleBackslashes_units hmem2), by simp⟩)
            rw [List.cons_append] at hi
            rw [hi]
            exact ⟨false, items, rfl⟩

/-! ## The translated expression always parses -/

theorem mem_specialChars_facts : ∀ c ∈ specialChars, c.isAlphanum = false ∧ c ≠ 'Z' := by
  decide

theorem badBare_eq_false {c : Char} (h : c ∉ specialChars) : badBare c = false := by
  by_contra hx
  have h2 : badBare c = true := by
    cases hb : badBare c
    · exact absurd hb hx
    · rfl
  simp [badBare] at h2
  rcases h2 with rfl | rfl | rfl | rfl | rfl | rfl | rfl | rfl | rfl | rfl | rfl | rfl | rfl <;>
    exact h (by decide)

theorem parseAtom1_dot (E : List Char) : parseAtom1 ('.' :: E) = some (Atom.dot, E) := by
  rw [parseAtom1.eq_def]
  dsimp only
  rw [if_pos rfl]

theorem parseAtom1_escaped {d : Char} (E : List Char) (hna : d.isAlphanum = false)
    (hZ : d ≠ 'Z') : parseAtom1 ('\\' :: d :: E) = some (Atom.lit d, E) := by
  rw [parseAtom1.eq_def]
  dsimp only
  rw [if_neg (by decide : ¬('\\' : Char) = '.'), if_pos rfl]
  rw [if_neg hZ, if_neg (show ¬(d.isAlphanum = true) by simp [hna])]

theorem parseAtom1_class (E : List Char) :
    parseAtom1 ('[' :: E) = (parseClass E).map (fun p => (Atom.cls p.1 p.2.1, p.2.2)) := by
  rw [parseAtom1.eq_def]
  dsimp only
  rw [if_neg (by decide : ¬('[' : Char) = '.'), if_neg (by decide : ¬('[' : Char) = '\\'),
    if_pos rfl]

theorem parseAtom1_bare {c : Char} (E : List Char) (h : c ∉ specialChars) :
    parseAtom1 (c :: E) = some (Atom.lit c, E) := by
  have hdot : c ≠ '.' := fun hx => h (by rw [hx]; decide)
  have hbs : c ≠ '\\' := fun hx => h (by rw [hx]; decide)
  have hlb : c ≠ '[' := fun hx => h (by rw [hx]; decide)
  rw [parseAtom1.eq_def]
  dsimp only
  rw [if_neg hdot, if_neg hbs, if_neg hlb, badBare_eq_false h,
    if_neg (by decide : ¬false = true)]

/-- The character after any translated prefix is never a bare `*`: a `*`
in the output only occurs directly after the `.` it was emitted with, or
escaped, or inside a class. -/
theorem trans_append_ne_star {p l : List Char} {x : Char} {xs : List Char}
    (h : trans p ++ '\\' :: l = x :: xs) : x ≠ '*' := by
  match p with
  | [] =>
    rw [trans_nil, List.nil_append] at h
    cases h
    decide
  | c :: rest =>
    rw [trans_cons] at h
    by_cases h1 : c = '*'
    · rw [if_pos h1, List.cons_append] at h
      cases h
      decide
    · rw [if_neg h1] at h
      by_cases h2 : c = '?'
      · rw [if_pos h2, List.cons_append] at h
        cases h
        decide
      · rw [if_neg h2] at h
        by_cases h3 : c = '['
        · rw [if_pos h3] at h
          cases hg : scanGroup rest with
          | none =>
            rw [hg] at h
            dsimp only at h
            rw [List.cons_append] at h
            cases h
            decide
          | some q =>
            obtain ⟨stuff, rem⟩ := q
            rw [hg] at h
            dsimp only at h
            rw [List.cons_append] at h
            cases h
            decide
        · rw [if_neg h3, escapeChar] at h
          by_cases h4 : c ∈ specialChars
          · rw [if_pos h4] at h
            simp only [List.cons_append] at h
            cases h
            decide
          · rw [if_neg h4] at h
            simp only [List.cons_append, List.nil_append] at h
            cases h
            intro hxx
            exact h4 (by rw [hxx]; decide)

/-- No atom of the list is the end anchor. -/
def anchorFree (ats : List (Atom × Bool)) : Prop :=
  ∀ p ∈ ats, p.1 ≠ Atom.endAnchor

theorem anchorFree_cons {a : Atom} {b : Bool} {ats : List (Atom × Bool)}
    (h1 : a ≠ Atom.endAnchor) (h2 : anchorFree ats) : anchorFree ((a, b) :: ats) := by
  intro q hq
  rcases List.mem_cons.mp hq with rfl | hq2
  · exact h1
  · exact h2 q hq2

/-- Main parse theorem: the body of every translated expression, followed
by the `\Z` suffix, parses into an anchor-free atom list followed by the
end anchor. -/
theorem transParses : ∀ (n : Nat) (p : List Char), p.length ≤ n →
    ∃ atoms, parseAtoms (trans p ++ ['\\', 'Z']) = some (atoms ++ [(Atom.endAnchor, false)])
      ∧ anchorFree atoms := by
  intro n
  induction n with
  | zero =>
    intro p hp
    have hnil : p = [] := by
      cases p with
      | nil => rfl
      | cons => simp at hp
    subst hnil
    refine ⟨[], ?_, ?_⟩
    · rw [trans_nil, List.nil_append]
      decide
    · intro q hq
      simp at hq
  | succ n ih =>
    intro p hp
    match p with
    | [] =>
      refine ⟨[], ?_, ?_⟩
      · rw [trans_nil, List.nil_append]
        decide
      · intro q hq
        simp at hq
    | c :: rest =>
      have hrest : rest.length ≤ n := by simpa using hp
      rw [trans_cons]
      by_cases h1 : c = '*'
      · rw [if_pos h1]
        obtain ⟨atoms, hA, hF⟩ := ih rest hrest
        refine ⟨(Atom.dot, true) :: atoms, ?_, anchorFree_cons (by decide) hF⟩
        rw [List.cons_append, List.cons_append, parseAtoms_cons,
          parseAtom1_dot ('*' :: (trans rest ++ ['\\', 'Z']))]
        dsimp only
        rw [if_pos rfl, hA]
        rfl
      · rw [if_neg h1]
        by_cases h2 : c = '?'
        · rw [if_pos h2]
          obtain ⟨atoms, hA, hF⟩ := ih rest hrest
          refine ⟨(Atom.dot, false) :: atoms, ?_, anchorFree_cons (by decide) hF⟩
          rw [List.cons_append, parseAtoms_cons, parseAtom1_dot (trans rest ++ ['\\', 'Z'])]
          dsimp only
          cases hE : trans rest ++ ['\\', 'Z'] with
          | nil => simp at hE
          | cons e E2 =>
            have he : e ≠ '*' := trans_append_ne_star hE
            dsimp only
            rw [if_neg he, ← hE, hA]
            rfl
        · rw [if_neg h2]
          by_cases h3 : c = '['
          · rw [if_pos h3]
            cases hg : scanGroup rest with
            | none =>
              obtain ⟨atoms, hA, hF⟩ := ih rest hrest
              refine ⟨(Atom.lit '[', false) :: atoms, ?_, anchorFree_cons (by decide) hF⟩
              rw [List.cons_append, List.cons_append, parseAtoms_cons,
                parseAtom1_escaped (trans rest ++ ['\\', 'Z']) (by decide) (by decide)]
              dsimp only
              cases hE : trans rest ++ ['\\', 'Z'] with
              | nil => simp at hE
              | cons e E2 =>
                have he : e ≠ '*' := trans_append_ne_star hE
                dsimp only
                rw [if_neg he, ← hE, hA]
                rfl
            | some q =>
              obtain ⟨stuff, rem⟩ := q
              have hrem : rem.length ≤ n := by
                have := scanGroup_length hg
                omega
              obtain ⟨atoms, hA, hF⟩ := ih rem hrem
              obtain ⟨neg, items, hC⟩ := parseClass_closes hg (trans rem ++ ['\\', 'Z'])
              refine ⟨(Atom.cls neg items, false) :: atoms, ?_,
                anchorFree_cons (fun hx => Atom.noConfusion hx) hF⟩
              rw [List.cons_append, parseAtoms_cons, List.append_assoc, List.cons_append,
                parseAtom1_class, hC]
              simp only [Option.map_some']
              cases hE : trans rem ++ ['\\', 'Z'] with
              | nil => simp at hE
              | cons e E2 =>
                have he : e ≠ '*' := trans_append_ne_star hE
                dsimp only
                rw [if_neg he, ← hE, hA]
                rfl
          · rw [if_neg h3, escapeChar]
            obtain ⟨atoms, hA, hF⟩ := ih rest hrest
            by_cases h4 : c ∈ specialChars
            · rw [if_pos h4]
              obtain ⟨hna, hZ⟩ := mem_specialChars_facts c h4
              refine ⟨(Atom.lit c, false) :: atoms, ?_,
                anchorFree_cons (fun hx => Atom.noConfusion hx) hF⟩
              simp only [List.cons_append, List.nil_append]
              rw [parseAtoms_cons, parseAtom1_escaped (trans rest ++ ['\\', 'Z']) hna hZ]
              dsimp only
              cases hE : trans rest ++ ['\\', 'Z'] with
              | nil => simp at hE
              | cons e E2 =>
                have he : e ≠ '*' := trans_append_ne_star hE
                dsimp only
                rw [if_neg he, ← hE, hA]
                rfl
            · rw [if_neg h4]
              refine ⟨(Atom.lit c, false) :: atoms, ?_,
                anchorFree_cons (fun hx => Atom.noConfusion hx) hF⟩
              simp only [List.cons_append, List.nil_append]
              rw [parseAtoms_cons, parseAtom1_bare _ h4]
              dsimp only
              cases hE : trans rest ++ ['\\', 'Z'] with
              | nil => simp at hE
              | cons e E2 =>
                have he : e ≠ '*' := trans_append_ne_star hE
                dsimp only
                rw [if_neg he, ← hE, hA]
                rfl

/-- `translate` always produces an expression accepted by the engine, of
the shape body-atoms + end anchor. -/
theorem translate_parseRegex (pat : List Char) :
    ∃ atoms, parseRegex (translate pat) = some (atoms ++ [(Atom.endAnchor, false)])
      ∧ anchorFree atoms := by
  have e : parseRegex (translate pat) = parseAtoms (trans pat ++ ['\\', 'Z']) := rfl
  rw [e]
  exact transParses pat.length pat (le_refl _)

/-- `re.match` against the atoms followed by `\Z` is exactly a whole-string
match of the atoms: the trailing absolute anchor turns the prefix search
into a fully anchored one. -/
theorem matchesFrom_append_anchor : ∀ (n : Nat) (ats : List (Atom × Bool)) (s : List Char),
    ats.length + s.length ≤ n → anchorFree ats →
    matchesFrom (ats ++ [(Atom.endAnchor, false)]) s = matchesFull ats s := by
  intro n
  induction n with
  | zero =>
    intro ats s hn hF
    cases ats with
    | cons => simp at hn
    | nil =>
      rw [List.nil_append, matchesFrom_anchor, matchesFrom_nil, matchesFull_nil]
      simp
  | succ n ih =>
    intro ats s hn hF
    match ats with
    | [] =>
      rw [List.nil_append, matchesFrom_anchor, matchesFrom_nil, matchesFull_nil]
      simp
    | (a, star) :: rest =>
      have ha : a ≠ Atom.endAnchor := hF (a, star) (List.mem_cons_self _ _)
      have hFr : anchorFree rest := fun q hq => hF q (List.mem_cons_of_mem _ hq)
      rw [List.cons_append]
      cases star with
      | true =>
        match s with
        | [] =>
          rw [matchesFrom_star_nil, matchesFull_star_nil]
          exact ih rest [] (by simp only [List.length_cons] at hn; omega) hFr
        | c :: s2 =>
          rw [matchesFrom_star_cons, matchesFull_star_cons,
            ih rest (c :: s2) (by simp only [List.length_cons] at hn ⊢; omega) hFr,
            ← List.cons_append,
            ih ((a, true) :: rest) s2 (by simp only [List.length_cons] at hn ⊢; omega) hF]
      | false =>
        match s with
        | [] =>
          rw [matchesFrom_consume_nil _ _ ha, matchesFull_consume_nil _ _ ha]
        | c :: s2 =>
          rw [matchesFrom_consume_cons _ _ _ _ ha, matchesFull_consume_cons _ _ _ _ ha,
            ih rest s2 (by simp only [List.length_cons] at hn; omega) hFr]

/-- `.*\Z` matches every string under `re.match`. -/
theorem dotstar_matches (s : List Char) :
    matchesFrom [(Atom.dot, true), (Atom.endAnchor, false)] s = true := by
  induction s with
  | nil => decide
  | cons c s2 ih =>
    rw [matchesFrom_star_cons, ih]
    simp [atomMatches]

/-! ## Plain character classes: exact item lists -/

theorem doubleBackslashes_id {l : List Char} (h : ∀ m ∈ l, m ≠ '\\') :
    doubleBackslashes l = l := by
  induction l with
  | nil => rfl
  | cons c rest ih =>
    rw [doubleBackslashes_cons _ (h c (List.mem_cons_self _ _)),
      ih (fun x hx => h x (List.mem_cons_of_mem _ hx))]

theorem scanGroup_plain {m0 : Char} {tl : List Char} (h1 : m0 ≠ '!') (h2 : m0 ≠ ']')
    (hmem : ']' ∉ m0 :: tl) :
    scanGroup ((m0 :: tl) ++ [']']) = some (m0 :: tl, []) := by
  rw [scanGroup_eq, List.cons_append]
  rw [skipChar_neg _ h1]
  dsimp only
  rw [skipChar_neg _ h2]
  dsimp only
  rw [← List.cons_append, scanClose_append hmem]
  rfl

theorem parseItems_plain : ∀ (ms : List Char) (rest : List Char),
    (∀ m ∈ ms, m ≠ ']' ∧ m ≠ '\\' ∧ m ≠ '-') →
    parseItems false (ms ++ ']' :: rest) = some (ms.map ClassItem.single, rest) := by
  intro ms
  induction ms with
  | nil =>
    intro rest h
    rw [List.nil_append, parseItems_cons, if_pos ⟨rfl, rfl⟩]
    rfl
  | cons m tl ih =>
    intro rest h
    obtain ⟨hm1, hm2, hm3⟩ := h m (List.mem_cons_self _ _)
    have htl := fun x hx => h x (List.mem_cons_of_mem _ hx)
    rw [List.cons_append, parseItems_cons, if_neg (fun hx => hm1 hx.1)]
    have hread : readClassChar false (m :: (tl ++ ']' :: rest)) = some (m, tl ++ ']' :: rest) := by
      simp only [readClassChar]
      rw [if_neg hm2, if_neg hm1]
    rw [hread]
    dsimp only
    match tl, htl with
    | [], _ =>
      rw [List.nil_append]
      simp only [itemStep]
      rw [if_neg (by decide : ¬(']' : Char) = '-')]
      have h0 := ih rest (fun x hx => absurd hx (List.not_mem_nil x))
      rw [List.nil_append] at h0
      rw [h0]
      rfl
    | t0 :: tl2, htl =>
      have ht0 := htl t0 (List.mem_cons_self _ _)
      rw [List.cons_append]
      simp only [itemStep]
      rw [if_neg ht0.2.2]
      have h0 := ih rest htl
      rw [List.cons_append] at h0
      rw [h0]
      rfl

theorem parseItems_plain1 (m0 : Char) (tl rest : List Char)
    (h : ∀ m ∈ m0 :: tl, m ≠ ']' ∧ m ≠ '\\' ∧ m ≠ '-') :
    parseItems true ((m0 :: tl) ++ ']' :: rest)
      = some ((m0 :: tl).map ClassItem.single, rest) := by
  obtain ⟨hm1, hm2, hm3⟩ := h m0 (List.mem_cons_self _ _)
  have htl := fun x hx => h x (List.mem_cons_of_mem _ hx)
  rw [List.cons_append, parseItems_cons,
    if_neg (fun hx => (by decide : ¬(true = false)) hx.2)]
  have hread : readClassChar true (m0 :: (tl ++ ']' :: rest)) = some (m0, tl ++ ']' :: rest) := by
    simp only [readClassChar]
    rw [if_neg hm2, if_neg hm1]
  rw [hread]
  dsimp only
  match tl, htl with
  | [], _ =>
    rw [List.nil_append]
    simp only [itemStep]
    rw [if_neg (by decide : ¬(']' : Char) = '-')]
    have h0 := parseItems_plain [] rest (fun x hx => absurd hx (List.not_mem_nil x))
    rw [List.nil_append] at h0
    rw [h0]
    rfl
  | t0 :: tl2, htl =>
    have ht0 := htl t0 (List.mem_cons_self _ _)
    rw [List.cons_append]
    simp only [itemStep]
    rw [if_neg ht0.2.2]
    have h0 := parseItems_plain (t0 :: tl2) rest htl
    rw [List.cons_append] at h0
    rw [h0]
    rfl

theorem itemMatches_single (c d : Char) :
    itemMatches c (ClassItem.single d) = (c == d) := rfl

theorem any_single (members : List Char) (c : Char) :
    (members.map ClassItem.single).any (fun it => itemMatches c it) = members.contains c := by
  induction members with
  | nil => rfl
  | cons m tl ih =>
    simp only [List.map_cons, List.any_cons, itemMatches_single, ih, List.contains_cons]

/-- The compiled atoms for a plain `[members]` class pattern. -/
theorem bracket_class_atoms (members : List Char) (hne : members ≠ [])
    (hcond : ∀ m ∈ members, m ≠ ']' ∧ m ≠ '\\' ∧ m ≠ '-' ∧ m ≠ '!' ∧ m ≠ '^') :
    parseRegex (translate ('[' :: (members ++ [']'])))
      = some [(Atom.cls false (members.map ClassItem.single), false), (Atom.endAnchor, false)] := by
  obtain ⟨m0, tl, rfl⟩ := List.exists_cons_of_ne_nil hne
  obtain ⟨hr, hb, hd, hbang, hcar⟩ := hcond m0 (List.mem_cons_self _ _)
  have hmem : ']' ∉ m0 :: tl := fun hx => ((hcond ']' hx).1 rfl)
  have hbsmem : ∀ m ∈ m0 :: tl, m ≠ '\\' := fun m hm => ((hcond m hm).2.1)
  have hplain : ∀ m ∈ m0 :: tl, m ≠ ']' ∧ m ≠ '\\' ∧ m ≠ '-' := fun m hm =>
    ⟨(hcond m hm).1, (hcond m hm).2.1, (hcond m hm).2.2.1⟩
  have e : parseRegex (translate ('[' :: ((m0 :: tl) ++ [']'])))
      = parseAtoms (trans ('[' :: ((m0 :: tl) ++ [']'])) ++ ['\\', 'Z']) := rfl
  rw [e, trans_cons, if_neg (by decide), if_neg (by decide), if_pos rfl,
    scanGroup_plain hbang hr hmem]
  dsimp only
  rw [doubleBackslashes_id hbsmem, fixHead_other _ hbang hcar, trans_nil]
  rw [List.cons_append, parseAtoms_cons, parseAtom1_class, List.append_assoc,
    (show ((']' :: []) : List Char) ++ ['\\', 'Z'] = ']' :: '\\' :: 'Z' :: [] from rfl)]
  rw [List.cons_append, parseClass_other _ hcar, ← List.cons_append,
    parseItems_plain1 m0 tl ('\\' :: 'Z' :: []) hplain]
  simp only [Option.map_some']
  rw [if_neg (by decide : ¬('\\' : Char) = '*')]
  have hz : parseAtoms ('\\' :: 'Z' :: []) = some [(Atom.endAnchor, false)] := by decide
  rw [hz]
  rfl

/-- The compiled atoms for a negated `[!members]` class pattern. -/
theorem bracket_neg_atoms (members : List Char) (hne : members ≠ [])
    (hcond : ∀ m ∈ members, m ≠ ']' ∧ m ≠ '\\' ∧ m ≠ '-' ∧ m ≠ '!' ∧ m ≠ '^') :
    parseRegex (translate ('[' :: ('!' :: (members ++ [']']))))
      = some [(Atom.cls true (members.map ClassItem.single), false), (Atom.endAnchor, false)] := by
  obtain ⟨m0, tl, rfl⟩ := List.exists_cons_of_ne_nil hne
  obtain ⟨hr, hb, hd, hbang, hcar⟩ := hcond m0 (List.mem_cons_self _ _)
  have hmem : ']' ∉ m0 :: tl := fun hx => ((hcond ']' hx).1 rfl)
  have hbsmem : ∀ m ∈ m0 :: tl, m ≠ '\\' := fun m hm => ((hcond m hm).2.1)
  have hplain : ∀ m ∈ m0 :: tl, m ≠ ']' ∧ m ≠ '\\' ∧ m ≠ '-' := fun m hm =>
    ⟨(hcond m hm).1, (hcond m hm).2.1, (hcond m hm).2.2.1⟩
  have hscan : scanGroup ('!' :: ((m0 :: tl) ++ [']'])) = some ('!' :: (m0 :: tl), []) := by
    rw [scanGroup_eq, skipChar_pos _ rfl]
    dsimp only
    rw [List.cons_append, skipChar_neg _ hr]
    dsimp only
    rw [← List.cons_append, scanClose_append hmem]
    rfl
  have e : parseRegex (translate ('[' :: ('!' :: ((m0 :: tl) ++ [']']))))
      = parseAtoms (trans ('[' :: ('!' :: ((m0 :: tl) ++ [']']))) ++ ['\\', 'Z']) := rfl
  rw [e, trans_cons, if_neg (by decide), if_neg (by decide), if_pos rfl, hscan]
  dsimp only
  rw [doubleBackslashes_cons _ (by decide), doubleBackslashes_id hbsmem, fixHead_bang,
    trans_nil]
  rw [List.cons_append, parseAtoms_cons, parseAtom1_class, List.append_assoc,
    (show ((']' :: []) : List Char) ++ ['\\', 'Z'] = ']' :: '\\' :: 'Z' :: [] from rfl)]
  rw [List.cons_append, parseClass_caret,
    parseItems_plain1 m0 tl ('\\' :: 'Z' :: []) hplain]
  simp only [Option.map_some']
  rw [if_neg (by decide : ¬('\\' : Char) = '*')]
  have hz : parseAtoms ('\\' :: 'Z' :: []) = some [(Atom.endAnchor, false)] := by decide
  rw [hz]
  rfl

/-! ## Literal patterns parse to literal atoms and match themselves -/

theorem literal_parses : ∀ (p : List Char), (∀ m ∈ p, m ≠ '*' ∧ m ≠ '?' ∧ m ≠ '[') →
    parseAtoms (trans p ++ ['\\', 'Z'])
      = some (p.map (fun c => (Atom.lit c, false)) ++ [(Atom.endAnchor, false)]) := by
  intro p
  induction p with
  | nil =>
    intro h
    rw [trans_nil, List.nil_append]
    decide
  | cons c rest ih =>
    intro h
    obtain ⟨h1, h2, h3⟩ := h c (List.mem_cons_self _ _)
    have hrest := fun x hx => h x (List.mem_cons_of_mem _ hx)
    rw [trans_cons, if_neg h1, if_neg h2, if_neg h3, escapeChar]
    by_cases h4 : c ∈ specialChars
    · rw [if_pos h4]
      obtain ⟨hna, hZ⟩ := mem_specialChars_facts c h4
      simp only [List.cons_append, List.nil_append]
      rw [parseAtoms_cons, parseAtom1_escaped (trans rest ++ ['\\', 'Z']) hna hZ]
      dsimp only
      cases hE : trans rest ++ ['\\', 'Z'] with
      | nil => simp at hE
      | cons e E2 =>
        have he := trans_append_ne_star hE
        dsimp only
        rw [if_neg he, ← hE, ih hrest]
        rfl
    · rw [if_neg h4]
      simp only [List.cons_append, List.nil_append]
      rw [parseAtoms_cons, parseAtom1_bare _ h4]
      dsimp only
      cases hE : trans rest ++ ['\\', 'Z'] with
      | nil => simp at hE
      | cons e E2 =>
        have he := trans_append_ne_star hE
        dsimp only
        rw [if_neg he, ← hE, ih hrest]
        rfl

theorem lits_matchSelf : ∀ p : List Char,
    matchesFull (p.map (fun c => (Atom.lit c, false))) p = true := by
  intro p
  induction p with
  | nil =>
    rw [List.map_nil, matchesFull_nil]
    rfl
  | cons c rest ih =>
    rw [List.map_cons, matchesFull_consume_cons _ _ _ _ (fun hx => Atom.noConfusion hx), ih]
    simp [atomMatches]

theorem anchorFree_lits (p : List Char) :
    anchorFree (p.map (fun c => (Atom.lit c, false))) := by
  intro q hq
  obtain ⟨c, hc, rfl⟩ := List.mem_map.mp hq
  exact fun hx => Atom.noConfusion hx

/-! ## Claims -/

/-- C1: for bracket groups of plainly listed members the translated
expression is a character class matching exactly the listed characters:
`[abc]` matches `a`, `b`, `c` and neither `d` nor `ab`; `[]]` (literal `]`
first member) matches `]`; a backslash inside the group is doubled, so
`[\]` matches exactly the backslash character. -/
theorem translate_bracket_class :
    (∀ (members : List Char) (c : Char), members ≠ [] →
      (∀ m ∈ members, m ≠ ']' ∧ m ≠ '\\' ∧ m ≠ '-' ∧ m ≠ '!' ∧ m ≠ '^') →
      fnmatchcase [c] ('[' :: (members ++ [']'])) = some (members.contains c)) ∧
    fnmatchcase ['a'] "[abc]".data = some true ∧
    fnmatchcase ['b'] "[abc]".data = some true ∧
    fnmatchcase ['c'] "[abc]".data = some true ∧
    fnmatchcase ['d'] "[abc]".data = some false ∧
    fnmatchcase "ab".data "[abc]".data = some false ∧
    fnmatchcase [']'] "[]]".data = some true ∧
    fnmatchcase ['a'] "[]]".data = some false ∧
    fnmatchcase ['\\'] "[\\]".data = some true ∧
    fnmatchcase ['x'] "[\\]".data = some false := by
  refine ⟨?_, by decide, by decide, by decide, by decide, by decide, by decide, by decide,
    by decide, by decide⟩
  intro members c hne hcond
  show (parseRegex (translate ('[' :: (members ++ [']'])))).map (fun r => matchesFrom r [c]) = _
  rw [bracket_class_atoms members hne hcond]
  simp only [Option.map_some']
  rw [matchesFrom_consume_cons _ _ _ _ (fun hx => Atom.noConfusion hx),
    (show matchesFrom [(Atom.endAnchor, false)] [] = true from by decide)]
  simp only [Bool.and_true, atomMatches]
  rw [if_neg (by decide : ¬(false = true)), any_single]

/-- C1 witness: the universal part applied at `[abc]` and `b`. -/
theorem translate_bracket_class_wit :
    fnmatchcase ['b'] ('[' :: ("abc".data ++ [']'])) = some ("abc".data.contains 'b') :=
  translate_bracket_class.1 "abc".data 'b' (by decide) (by decide)

/-- C2: a leading `!` in a terminated group becomes a regex-negated class:
`[!abc]` matches `d` and not `a`; a leading literal `^` is escaped with a
backslash, so `[^ab]` matches `^`, `a`, `b` literally and is not a negated
class. -/
theorem translate_negated_class :
    (∀ (members : List Char) (c : Char), members ≠ [] →
      (∀ m ∈ members, m ≠ ']' ∧ m ≠ '\\' ∧ m ≠ '-' ∧ m ≠ '!' ∧ m ≠ '^') →
      fnmatchcase [c] ('[' :: ('!' :: (members ++ [']'])))
        = some (!(members.contains c))) ∧
    fnmatchcase ['d'] "[!abc]".data = some true ∧
    fnmatchcase ['a'] "[!abc]".data = some false ∧
    fnmatchcase ['^'] "[^ab]".data = some true ∧
    fnmatchcase ['a'] "[^ab]".data = some true ∧
    fnmatchcase ['c'] "[^ab]".data = some false := by
  refine ⟨?_, by decide, by decide, by decide, by decide, by decide⟩
  intro members c hne hcond
  show (parseRegex (translate ('[' :: ('!' :: (members ++ [']']))))).map
      (fun r => matchesFrom r [c]) = _
  rw [bracket_neg_atoms members hne hcond]
  simp only [Option.map_some']
  rw [matchesFrom_consume_cons _ _ _ _ (fun hx => Atom.noConfusion hx),
    (show matchesFrom [(Atom.endAnchor, false)] [] = true from by decide)]
  simp only [Bool.and_true, atomMatches]
  simp only [if_true]
  rw [any_single]

/-- C2 witness: the universal part applied at `[!abc]` and `d`. -/
theorem translate_negated_class_wit :
    fnmatchcase ['d'] ('[' :: ('!' :: ("abc".data ++ [']'])))
      = some (!("abc".data.contains 'd')) :=
  translate_negated_class.1 "abc".data 'd' (by decide) (by decide)

/-- C3: a `[` whose group never closes is emitted as the escaped literal
`\[` and translation does not fail; `translate("[")` matches exactly the
one-character string `[`. -/
theorem translate_unterminated_bracket :
    (∀ rest : List Char, scanGroup rest = none →
      trans ('[' :: rest) = '\\' :: '[' :: trans rest) ∧
    (∀ s : List Char, fnmatchcase s ['['] = some (decide (s = ['[']))) := by
  constructor
  · intro rest h
    rw [trans_cons, if_neg (by decide), if_neg (by decide), if_pos rfl, h]
  · intro s
    show (parseRegex (translate ['['])).map (fun r => matchesFrom r s) = _
    rw [show parseRegex (translate ['['])
        = some [(Atom.lit '[', false), (Atom.endAnchor, false)] from by decide]
    simp only [Option.map_some']
    match s with
    | [] => decide
    | [c] =>
      rw [matchesFrom_consume_cons _ _ _ _ (fun hx => Atom.noConfusion hx),
        (show matchesFrom [(Atom.endAnchor, false)] [] = true from by decide)]
      simp only [Bool.and_true, atomMatches]
      by_cases hc : c = '['
      · subst hc
        decide
      · rw [decide_eq_false (by simp [hc]), (show (c == '[') = false from by simp [hc])]
    | c :: c2 :: s3 =>
      rw [matchesFrom_consume_cons _ _ _ _ (fun hx => Atom.noConfusion hx), matchesFrom_anchor]
      rw [decide_eq_false (by simp : ¬(c :: c2 :: s3 = ['[']))]
      simp

/-- C3 witness: the unterminated-group clause applied at pattern rest `a`,
and the matcher clause at the string `[`. -/
theorem translate_unterminated_bracket_wit :
    trans ('[' :: ['a']) = '\\' :: '[' :: trans ['a'] :=
  translate_unterminated_bracket.1 ['a'] (by decide)

/-- C4: `translate("*")` matches every string, including the empty string
and strings containing newlines; `translate("?")` matches exactly the
one-character strings, including a sole newline. -/
theorem translate_star_question :
    (∀ s : List Char, fnmatchcase s ['*'] = some true) ∧
    (∀ s : List Char, fnmatchcase s ['?'] = some (decide (s.length = 1))) ∧
    fnmatchcase ['\n'] ['?'] = some true ∧
    fnmatchcase ('a' :: '\n' :: 'b' :: []) ['*'] = some true ∧
    fnmatchcase [] ['*'] = some true ∧
    fnmatchcase [] ['?'] = some false ∧
    fnmatchcase "ab".data ['?'] = some false := by
  refine ⟨?_, ?_, by decide, by decide, by decide, by decide, by decide⟩
  · intro s
    show (parseRegex (translate ['*'])).map (fun r => matchesFrom r s) = some true
    rw [show parseRegex (translate ['*'])
        = some [(Atom.dot, true), (Atom.endAnchor, false)] from by decide]
    simp only [Option.map_some']
    rw [dotstar_matches]
  · intro s
    show (parseRegex (translate ['?'])).map (fun r => matchesFrom r s) = _
    rw [show parseRegex (translate ['?'])
        = some [(Atom.dot, false), (Atom.endAnchor, false)] from by decide]
    simp only [Option.map_some']
    match s with
    | [] => decide
    | [c] =>
      rw [matchesFrom_consume_cons _ _ _ _ (fun hx => Atom.noConfusion hx),
        (show matchesFrom [(Atom.endAnchor, false)] [] = true from by decide)]
      simp [atomMatches]
    | c :: c2 :: s3 =>
      rw [matchesFrom_consume_cons _ _ _ _ (fun hx => Atom.noConfusion hx), matchesFrom_anchor]
      rw [decide_eq_false (show ¬((c :: c2 :: s3).length = 1) by
        simp only [List.length_cons]; omega)]
      simp

/-- C5: `fnmatchcase(name, pattern)` is true exactly when the compiled
expression matches `name` as a whole string, anchored at both the start
and the absolute end; the empty pattern matches only the empty name. -/
theorem fnmatchcase_whole_string :
    (∀ name pat : List Char, ∃ atoms,
        parseRegex (translate pat) = some (atoms ++ [(Atom.endAnchor, false)]) ∧
        fnmatchcase name pat = some (matchesFull atoms name)) ∧
    fnmatchcase [] [] = some true ∧
    fnmatchcase ['x'] [] = some false := by
  refine ⟨?_, by decide, by decide⟩
  intro name pat
  obtain ⟨atoms, hP, hF⟩ := translate_parseRegex pat
  refine ⟨atoms, hP, ?_⟩
  show (parseRegex (translate pat)).map (fun r => matchesFrom r name) = _
  rw [hP]
  simp only [Option.map_some']
  rw [matchesFrom_append_anchor (atoms.length + name.length) atoms name (le_refl _) hF]

/-- C6: a pattern with none of the wildcard metacharacters `*`, `?`, `[`
is escaped into a literal expression that matches the pattern itself. -/
theorem fnmatchcase_literal_self (P : List Char)
    (h : ∀ m ∈ P, m ≠ '*' ∧ m ≠ '?' ∧ m ≠ '[') :
    fnmatchcase P P = some true := by
  show (parseRegex (translate P)).map (fun r => matchesFrom r P) = some true
  rw [show parseRegex (translate P) = parseAtoms (trans P ++ ['\\', 'Z']) from rfl,
    literal_parses P h]
  simp only [Option.map_some']
  rw [matchesFrom_append_anchor ((P.map (fun c => (Atom.lit c, false))).length + P.length)
      _ P (le_refl _) (anchorFree_lits P), lits_matchSelf]

/-- C6 witness: a metacharacter-free pattern matches itself. -/
theorem fnmatchcase_literal_self_wit :
    fnmatchcase "a-b.txt".data "a-b.txt".data = some true :=
  fnmatchcase_literal_self "a-b.txt".data (by decide)

/-- C7: translation is total and never emits a malformed expression: for
every pattern the translated string has the flag prefix and the `\Z`
suffix, and the engine accepts it. -/
theorem translate_total_wellformed (pat : List Char) :
    translate pat = reFlags ++ (trans pat ++ ['\\', 'Z']) ∧
    ∃ r, parseRegex (translate pat) = some r := by
  refine ⟨rfl, ?_⟩
  obtain ⟨atoms, hP, _⟩ := translate_parseRegex pat
  exact ⟨_, hP⟩

/-- C8: `fnmatch` case-normalizes both arguments with the host convention
and delegates to `fnmatchcase`; with the identity convention the two
coincide, and under case folding they diverge exactly on differing-case
otherwise-equal strings. -/
theorem fnmatch_normcase_delegate :
    (∀ (nc : List Char → List Char) (name pat : List Char),
      fnmatch nc name pat = fnmatchcase (nc name) (nc pat)) ∧
    (∀ name pat : List Char, fnmatch normcasePosix name pat = fnmatchcase name pat) ∧
    fnmatch normcaseFold ['A'] ['a'] = some true ∧
    fnmatchcase ['A'] ['a'] = some false ∧
    fnmatch normcaseFold ['A'] ['A'] = some true := by
  exact ⟨fun nc name pat => rfl, fun name pat => rfl, by decide, by decide, by decide⟩

/-- C9: `filter(names, pattern)` returns exactly the ordered subsequence of
`names` matching under `fnmatch`-equivalent matching, the pattern being
normalized once; a non-matching input yields the empty list. -/
theorem filter_ordered_subsequence :
    (∀ (nc : List Char → List Char) (names : List (List Char)) (pat : List Char),
      Fnmatch.filter false nc names pat
        = some (names.filter (fun n => (fnmatch nc n pat).getD false))) ∧
    (∀ (names : List (List Char)) (pat : List Char),
      Fnmatch.filter true id names pat
        = some (names.filter (fun n => (fnmatch id n pat).getD false))) ∧
    Fnmatch.filter true id ["a.py".data, "b.txt".data, "c.py".data] "*.py".data
      = some ["a.py".data, "c.py".data] ∧
    Fnmatch.filter true id ["b.txt".data] "*.py".data = some [] := by
  refine ⟨?_, ?_, by decide, by decide⟩
  · intro nc names pat
    obtain ⟨atoms, hP, _⟩ := translate_parseRegex (nc pat)
    simp only [Fnmatch.filter]
    rw [hP]
    dsimp only
    rw [if_neg (by decide : ¬(false = true))]
    refine congrArg some (List.filter_congr ?_)
    intro x hx
    have hfx : fnmatch nc x pat
        = some (matchesFrom (atoms ++ [(Atom.endAnchor, false)]) (nc x)) := by
      show (parseRegex (translate (nc pat))).map (fun r => matchesFrom r (nc x)) = _
      rw [hP]
      rfl
    rw [hfx]
    rfl
  · intro names pat
    obtain ⟨atoms, hP, _⟩ := translate_parseRegex (id pat)
    simp only [Fnmatch.filter]
    rw [hP]
    dsimp only
    simp only [if_true]
    refine congrArg some (List.filter_congr ?_)
    intro x hx
    have hfx : fnmatch id x pat
        = some (matchesFrom (atoms ++ [(Atom.endAnchor, false)]) x) := by
      show (parseRegex (translate (id pat))).map (fun r => matchesFrom r (id x)) = _
      rw [hP]
      rfl
    rw [hfx]
    rfl

/-- C10: after an unterminated `[` is emitted as the literal `\[`, the scan
resumes right after the `[`, so later metacharacters keep their meaning:
`translate("[a*")` matches exactly the strings starting with `[a`. -/
theorem translate_unterminated_resume :
    (∀ s : List Char, fnmatchcase s "[a*".data = some (decide (s.take 2 = ['[', 'a']))) ∧
    fnmatchcase "[abc".data "[a*".data = some true ∧
    fnmatchcase "[a".data "[a*".data = some true ∧
    fnmatchcase ['a'] "[a*".data = some false := by
  refine ⟨?_, by decide, by decide, by decide⟩
  intro s
  show (parseRegex (translate "[a*".data)).map (fun r => matchesFrom r s) = _
  rw [show parseRegex (translate "[a*".data)
      = some [(Atom.lit '[', false), (Atom.lit 'a', false), (Atom.dot, true),
          (Atom.endAnchor, false)] from by decide]
  simp only [Option.map_some']
  match s with
  | [] => decide
  | [c] =>
    rw [matchesFrom_consume_cons _ _ _ _ (fun hx => Atom.noConfusion hx),
      matchesFrom_consume_nil _ _ (fun hx => Atom.noConfusion hx)]
    rw [decide_eq_false (by simp : ¬(([c] : List Char).take 2 = ['[', 'a']))]
    simp
  | c :: c2 :: s3 =>
    rw [matchesFrom_consume_cons _ _ _ _ (fun hx => Atom.noConfusion hx),
      matchesFrom_consume_cons _ _ _ _ (fun hx => Atom.noConfusion hx),
      dotstar_matches s3]
    simp only [Bool.and_true, atomMatches]
    by_cases h1 : c = '['
    · by_cases h2 : c2 = 'a'
      · subst h1
        subst h2
        simp [List.take]
      · subst h1
        rw [decide_eq_false (by simp [h2])]
        simp [h2]
    · rw [decide_eq_false (by simp [h1])]
      simp [h1]

end Fnmatch
